import Mathlib

/-!
Verification of the loglyzer log-analysis pipeline (src/main.rs).

Modelling conventions for the shallow embedding:
* Rust `String` / `&str` values are modelled as `List Char`.
* The regex classes are modelled on the characters that can occur in log
  lines: `\s` as `Char.isWhitespace` (space, tab, CR, LF), `\d` as ASCII
  digits, `\w` as ASCII alphanumerics plus underscore.  On inputs containing
  exotic Unicode digits or word characters both the Rust code and the model
  reject the line (the Rust regex may match but the subsequent chrono or
  level-token check fails), so `parse_log_line` agrees observationally.
* `chrono::NaiveDateTime` is modelled as a record of six `Nat` fields;
  `parse_from_str "%Y-%m-%d %H:%M:%S"` validates month/day ranges (with leap
  years), hour ≤ 23, minute ≤ 59 and second ≤ 60 (chrono accepts a leap
  second).  Ordering is lexicographic on the six components, which agrees
  with chrono's order on all values producible by parsing.
* Rust `HashMap` is modelled as an association list holding the first-seen
  insertion order of its keys; `HashMap::into_iter`, whose enumeration order
  is unspecified, is modelled by an explicit enumeration parameter that
  theorems constrain to be a permutation of the association list.
* `f64` percentage arithmetic is modelled exactly over `ℚ`.
-/

/-- A parsed calendar timestamp, the model of `chrono::NaiveDateTime`. -/
structure DateTime where
  year : Nat
  month : Nat
  day : Nat
  hour : Nat
  minute : Nat
  second : Nat
deriving DecidableEq

/-- Positional encoding of a `DateTime`; on calendar-valid values the order
of the encodings is the lexicographic order on components, which is the
order `chrono` uses. -/
def DateTime.key (t : DateTime) : Nat :=
  ((((t.year * 13 + t.month) * 32 + t.day) * 25 + t.hour) * 61 + t.minute) * 61 + t.second

/-- Model of the `chrono` comparison `a <= b` on `NaiveDateTime`. -/
def dtLe (a b : DateTime) : Bool :=
  decide (a.key ≤ b.key)

/-- The `LogLevel` enumeration from the source. -/
inductive LogLevel where
  | info
  | warning
  | error
  | debug
deriving DecidableEq

/-- `LogLevel::as_str`. -/
def LogLevel.as_str : LogLevel → List Char
  | .info => "INFO".data
  | .warning => "WARNING".data
  | .error => "ERROR".data
  | .debug => "DEBUG".data

/-- `LogLevel::from_str`: uppercase the token (ASCII case fold) and match it
against the known level names, with `WARN` accepted for `WARNING`. -/
def LogLevel.from_str (s : List Char) : Option LogLevel :=
  let u := s.map Char.toUpper
  if u = "INFO".data then some .info
  else if u = "WARN".data ∨ u = "WARNING".data then some .warning
  else if u = "ERROR".data then some .error
  else if u = "DEBUG".data then some .debug
  else none

/-- One parsed log record (struct `LogEntry`). -/
structure LogEntry where
  timestamp : List Char
  datetime : DateTime
  level : LogLevel
  message : List Char
deriving DecidableEq

/-- Result of ingestion (struct `ParsedLogs`). -/
structure ParsedLogs where
  entries : List LogEntry
  skipped : Nat
deriving DecidableEq

/-- Character class of the regex `\s` on the characters occurring in text
lines (space, tab, carriage return, line feed). -/
def isWsChar (c : Char) : Bool :=
  c.isWhitespace

/-- Character class of the regex `\w` (ASCII model). -/
def isWordChar (c : Char) : Bool :=
  c.isAlphanum || c = '_'

/-- Take exactly `n` decimal digits from the front (regex `\d{n}`). -/
def takeDigits : Nat → List Char → Option (List Char × List Char)
  | 0, cs => some ([], cs)
  | _ + 1, [] => none
  | n + 1, c :: cs =>
    if c.isDigit then (takeDigits n cs).map (fun p => (c :: p.1, p.2)) else none

/-- Consume one expected literal character. -/
def expectCh (c : Char) : List Char → Option (List Char)
  | [] => none
  | d :: rest => if d = c then some rest else none

/-- Consume a nonempty maximal whitespace run (regex `\s+` followed by a
non-whitespace requirement, which makes the greedy match deterministic). -/
def wsRun (cs : List Char) : Option (List Char × List Char) :=
  let run := cs.takeWhile isWsChar
  if run = [] then none else some (run, cs.dropWhile isWsChar)

/-- Consume a nonempty maximal word-character run (regex `\w+` followed by
`]`, which is not a word character, so the greedy match is deterministic). -/
def wordRun (cs : List Char) : Option (List Char × List Char) :=
  let run := cs.takeWhile isWordChar
  if run = [] then none else some (run, cs.dropWhile isWordChar)

/-- The suffix of the regex after `]`: `\s+(.+)$` with leftmost-greedy
semantics. `\s+` takes the maximal whitespace run; if nothing is left after
it, the engine backtracks one step so that `.+` can take the final
character, which must not be a line feed (`.` does not match `\n`). -/
def msgCapture (rest : List Char) : Option (List Char) :=
  let run := rest.takeWhile isWsChar
  let tail := rest.dropWhile isWsChar
  if run = [] then none
  else if tail = [] then
    if 2 ≤ run.length ∧ rest.getLast? ≠ some '\n' then
      (rest.getLast?).map (fun c => [c])
    else none
  else
    if '\n' ∈ tail then none else some tail

/-- The pieces of the timestamp capture group
`(\d{4}-\d{2}-\d{2}\s+\d{2}:\d{2}:\d{2})`. -/
structure TsParts where
  yc : List Char
  moc : List Char
  dc : List Char
  w1 : List Char
  hc : List Char
  mic : List Char
  sc : List Char
deriving DecidableEq

/-- The verbatim text matched by the timestamp capture group. -/
def TsParts.render (p : TsParts) : List Char :=
  p.yc ++ '-' :: p.moc ++ '-' :: p.dc ++ p.w1 ++ p.hc ++ ':' :: p.mic ++ ':' :: p.sc

/-- Scan the timestamp capture group at the start of the line. -/
def scanTs (cs : List Char) : Option (TsParts × List Char) := do
  let (yc, r) ← takeDigits 4 cs
  let r ← expectCh '-' r
  let (moc, r) ← takeDigits 2 r
  let r ← expectCh '-' r
  let (dc, r) ← takeDigits 2 r
  let (w1, r) ← wsRun r
  let (hc, r) ← takeDigits 2 r
  let r ← expectCh ':' r
  let (mic, r) ← takeDigits 2 r
  let r ← expectCh ':' r
  let (sc, r) ← takeDigits 2 r
  pure (⟨yc, moc, dc, w1, hc, mic, sc⟩, r)

/-- Numeric value of a digit string (most significant first). -/
def digitsVal (cs : List Char) : Nat :=
  cs.foldl (fun a c => a * 10 + (c.toNat - 48)) 0

/-- Gregorian leap-year test, as `chrono` implements it. -/
def isLeapYear (y : Nat) : Bool :=
  (y % 4 = 0 && y % 100 ≠ 0) || y % 400 = 0

/-- Number of days of a month, as `chrono` validates `%d`. -/
def daysInMonth (y m : Nat) : Nat :=
  if m = 2 then (if isLeapYear y then 29 else 28)
  else if m = 4 ∨ m = 6 ∨ m = 9 ∨ m = 11 then 30
  else 31

/-- Calendar validity of a date, as `chrono` checks it. -/
def validDate (y m d : Nat) : Bool :=
  decide (1 ≤ m) && decide (m ≤ 12) && decide (1 ≤ d) && decide (d ≤ daysInMonth y m)

/-- Model of `NaiveDateTime::parse_from_str(ts, "%Y-%m-%d %H:%M:%S")` applied
to the text matched by the timestamp capture group: the digit fields are at
fixed positions (chrono's whitespace item matches the `\s+` run), and chrono
validates the calendar date, hour ≤ 23, minute ≤ 59 and second ≤ 60 (a
parsed second of 60 is accepted as a leap second). -/
def chronoParse (p : TsParts) : Option DateTime :=
  let y := digitsVal p.yc
  let mo := digitsVal p.moc
  let d := digitsVal p.dc
  let h := digitsVal p.hc
  let mi := digitsVal p.mic
  let s := digitsVal p.sc
  if validDate y mo d && decide (h ≤ 23) && decide (mi ≤ 59) && decide (s ≤ 60) then
    some ⟨y, mo, d, h, mi, s⟩
  else none

/-- `parse_log_line`: match the anchored regex
`^(\d{4}-\d{2}-\d{2}\s+\d{2}:\d{2}:\d{2})\s+\[(\w+)\]\s+(.+)$`, parse the
timestamp capture with chrono, map the level token, and keep the message
capture verbatim. -/
def parse_log_line (line : List Char) : Option LogEntry := do
  let (p, r) ← scanTs line
  let (_, r) ← wsRun r
  let r ← expectCh '[' r
  let (lvlTok, r) ← wordRun r
  let r ← expectCh ']' r
  let msg ← msgCapture r
  let dt ← chronoParse p
  let lvl ← LogLevel.from_str lvlTok
  pure ⟨p.render, dt, lvl, msg⟩

example : parse_log_line "2024-01-15 10:30:45 [ERROR] Failed to connect".data =
    some ⟨"2024-01-15 10:30:45".data, ⟨2024, 1, 15, 10, 30, 45⟩, .error,
      "Failed to connect".data⟩ := by decide

example : parse_log_line "not a log line".data = none := by decide

example : parse_log_line "2024-01-15 [INFO] missing time".data = none := by decide

example : parse_log_line "2024-13-15 10:30:45 [ERROR] bad month".data = none := by decide

/-! ## Ingestion

The file is modelled as its list of newline-terminated raw lines: the
content is the concatenation of `line ++ "\n"` over the list, and no raw
line contains `'\n'`.  Both ingestion modes split the byte stream at the
same positions, so they see the same raw lines. -/

/-- What `read_logs` does to the buffer filled by `read_line` (which still
carries the `'\n'` terminator): `trim_end_matches(['\n', '\r'])` removes
every trailing line-feed or carriage-return character. -/
def trimEndCRLF (l : List Char) : List Char :=
  (l.reverse.dropWhile (fun c => c = '\n' || c = '\r')).reverse

/-- What `BufRead::lines` yields for a newline-terminated raw line: the
`'\n'` terminator is removed, then one trailing `'\r'` if present. -/
def stripLineCR (l : List Char) : List Char :=
  match l.reverse with
  | c :: t => if c = '\r' then t.reverse else l
  | [] => l

/-- `read_logs`: stream the lines one at a time, pushing each successful
parse and counting each failure. -/
def read_logs : List (List Char) → ParsedLogs
  | [] => ⟨[], 0⟩
  | l :: ls =>
    let r := read_logs ls
    match parse_log_line (trimEndCRLF l) with
    | some e => ⟨e :: r.entries, r.skipped⟩
    | none => ⟨r.entries, r.skipped + 1⟩

/-- `read_logs_parallel`: materialize all lines, parse them in parallel
keeping only the successes (`par_iter().filter_map(..)` preserves index
order), and infer the skip count as `total - successes` with saturating
subtraction. -/
def read_logs_parallel (lines : List (List Char)) : ParsedLogs :=
  let entries := lines.filterMap (fun l => parse_log_line (stripLineCR l))
  ⟨entries, lines.length - entries.length⟩

/-- `PARALLEL_THRESHOLD`: 10 MiB. -/
def PARALLEL_THRESHOLD : Nat := 10 * 1024 * 1024

/-- The mode-selection predicate from `main`:
`cli.parallel || file_size > PARALLEL_THRESHOLD`. -/
def useParallel (overrideFlag : Bool) (fileSize : Nat) : Bool :=
  overrideFlag || decide (PARALLEL_THRESHOLD < fileSize)

/-- The ingestion dispatch from `main`. -/
def chooseIngestion (overrideFlag : Bool) (fileSize : Nat)
    (lines : List (List Char)) : ParsedLogs :=
  if useParallel overrideFlag fileSize then read_logs_parallel lines
  else read_logs lines

/-! ## Filtering -/

/-- The canonical rendering `format!("{} [{}] {}", ts, level, message)` used
by the search filter. -/
def renderEntry (e : LogEntry) : List Char :=
  e.timestamp ++ ' ' :: '[' :: (e.level.as_str ++ ']' :: ' ' :: e.message)

/-- `str::to_lowercase`, ASCII model. -/
def toLowerL (l : List Char) : List Char :=
  l.map Char.toLower

/-- `str::contains(term)`: substring test. -/
def containsSub (hay needle : List Char) : Bool :=
  if needle.isPrefixOf hay then true
  else
    match hay with
    | [] => false
    | _ :: t => containsSub t needle

/-- `filter_entries`: the four chained `filter` calls from the source. -/
def filter_entries (entries : List LogEntry) (errors_only : Bool)
    (search_lower : Option (List Char)) (since untl : Option DateTime) :
    List LogEntry :=
  ((((entries.filter
      (fun e => !errors_only || e.level == LogLevel.error)).filter
      (fun e => match since with
        | some s => dtLe s e.datetime
        | none => true)).filter
      (fun e => match untl with
        | some u => dtLe e.datetime u
        | none => true)).filter
      (fun e => match search_lower with
        | some term => containsSub (toLowerL (renderEntry e)) term
        | none => true))

/-! ## Aggregation -/

/-- `*map.entry(k).or_insert(0) += 1` on an association list that records
first-seen insertion order: bump an existing key in place or append the new
key with count 1. -/
def bumpKey {α : Type} [DecidableEq α] (m : List (α × Nat)) (k : α) :
    List (α × Nat) :=
  match m with
  | [] => [(k, 1)]
  | (k', v) :: rest =>
    if k' = k then (k', v + 1) :: rest else (k', v) :: bumpKey rest k

/-- Sum of the values of an association list. -/
def sumVals {α : Type} (m : List (α × Nat)) : Nat :=
  (m.map (fun p => p.2)).sum

/-- Lookup with default 0 (`map.get(k)` view of the counts). -/
def lookupD {α : Type} [DecidableEq α] (m : List (α × Nat)) (k : α) : Nat :=
  match m with
  | [] => 0
  | (k', v) :: rest => if k' = k then v else lookupD rest k

/-- `extract_hour`: take the first two whitespace-separated tokens of the
stored timestamp, then the prefix of the second token before the first
colon, and render `"HH:00"`.  (`split(':').next()` always yields at least
one piece, so only a missing date or time token can fail.) -/
def splitWsAux : List Char → List Char → List (List Char)
  | [], acc => if acc = [] then [] else [acc.reverse]
  | c :: cs, acc =>
    if isWsChar c then
      if acc = [] then splitWsAux cs []
      else acc.reverse :: splitWsAux cs []
    else splitWsAux cs (c :: acc)

/-- `str::split_whitespace` (the tokens between whitespace runs, empties
discarded). -/
def splitWs (l : List Char) : List (List Char) :=
  splitWsAux l []

/-- `extract_hour` on the timestamp string. -/
def extract_hour (ts : List Char) : Option (List Char) :=
  match splitWs ts with
  | _date :: time :: _ => some (time.takeWhile (fun c => decide (c ≠ ':')) ++ ":00".data)
  | _ => none

/-- The per-message frequency record (struct `ErrorFrequency`). -/
structure ErrorFrequency where
  message : List Char
  count : Nat
deriving DecidableEq

/-- The state of the single aggregation pass of `analyze_logs`. -/
structure AggState where
  by_level : List (List Char × Nat)
  error_messages : List (List Char × Nat)
  errors_by_hour : List (List Char × Nat)
deriving DecidableEq

/-- One iteration of the aggregation loop of `analyze_logs`: `by_level` is
always bumped; for an `ERROR` entry the message frequency map is bumped and,
when `extract_hour` succeeds, so is the hour bucket. -/
def aggStep (st : AggState) (e : LogEntry) : AggState :=
  if e.level = LogLevel.error then
    match extract_hour e.timestamp with
    | some h =>
      { by_level := bumpKey st.by_level e.level.as_str
        error_messages := bumpKey st.error_messages e.message
        errors_by_hour := bumpKey st.errors_by_hour h }
    | none =>
      { by_level := bumpKey st.by_level e.level.as_str
        error_messages := bumpKey st.error_messages e.message
        errors_by_hour := st.errors_by_hour }
  else
    { st with by_level := bumpKey st.by_level e.level.as_str }

/-- The aggregation pass of `analyze_logs` over the filtered batch. -/
def aggregate (entries : List LogEntry) : AggState :=
  entries.foldl aggStep ⟨[], [], []⟩

/-- Insert into a descending-by-count list, after every element of equal or
larger count. -/
def insertDesc (x : ErrorFrequency) : List ErrorFrequency → List ErrorFrequency
  | [] => [x]
  | y :: ys => if y.count < x.count then x :: y :: ys else y :: insertDesc x ys

/-- Stable sort descending by count.  `Vec::sort_by(|a, b| b.count.cmp(&a.count))`
is a stable sort, and every stable sort under the same comparator produces
the same list, so stable insertion sort is a faithful model. -/
def sortDesc (l : List ErrorFrequency) : List ErrorFrequency :=
  l.foldl (fun acc x => insertDesc x acc) []

/-- Render `%Y-%m-%d %H:%M:%S` for the `since`/`until` echo. -/
def digitChar (n : Nat) : Char :=
  Char.ofNat (48 + n)

/-- Zero-padded two-digit rendering. -/
def pad2 (n : Nat) : List Char :=
  [digitChar (n / 10), digitChar (n % 10)]

/-- Zero-padded four-digit rendering. -/
def pad4 (n : Nat) : List Char :=
  [digitChar (n / 1000), digitChar (n / 100 % 10), digitChar (n / 10 % 10),
    digitChar (n % 10)]

/-- `format("%Y-%m-%d %H:%M:%S")` on a datetime. -/
def renderDt (t : DateTime) : List Char :=
  pad4 t.year ++ '-' :: pad2 t.month ++ '-' :: pad2 t.day ++ ' ' :: pad2 t.hour
    ++ ':' :: pad2 t.minute ++ ':' :: pad2 t.second

/-- The aggregation result (struct `LogStats`).  Error rates are modelled
over `ℚ`. -/
structure LogStats where
  total_entries : Nat
  by_level : List (List Char × Nat)
  top_errors : List ErrorFrequency
  errors_by_hour : List (List Char × Nat)
  error_rate_by_hour : List (List Char × ℚ)
  since : Option (List Char)
  untl : Option (List Char)
  skipped_lines : Nat

/-- `analyze_logs`.  `enumErr` models the unspecified enumeration order of
`error_messages.into_iter()`: theorems about `top_errors` constrain it to
be a permutation of the aggregated frequency map
`(aggregate entries).error_messages`. -/
def analyze_logs (entries : List LogEntry) (top_n : Nat)
    (enumErr : List (List Char × Nat)) (since untl : Option DateTime)
    (skipped : Nat) : LogStats :=
  let st := aggregate entries
  let top_errors :=
    (sortDesc (enumErr.map (fun p => ⟨p.1, p.2⟩))).take (max top_n 1)
  let error_rate_by_hour :=
    if entries = [] then []
    else st.errors_by_hour.map
      (fun p => (p.1, ((p.2 : ℚ) / (entries.length : ℚ)) * 100))
  { total_entries := entries.length
    by_level := st.by_level
    top_errors := top_errors
    errors_by_hour := st.errors_by_hour
    error_rate_by_hour := error_rate_by_hour
    since := since.map renderDt
    untl := untl.map renderDt
    skipped_lines := skipped }


/-! ## Association-list counting lemmas -/

theorem sumVals_bumpKey {α : Type} [DecidableEq α] (m : List (α × Nat)) (k : α) :
    sumVals (bumpKey m k) = sumVals m + 1 := by
  induction m with
  | nil => simp [bumpKey, sumVals]
  | cons p rest ih =>
    obtain ⟨k', v⟩ := p
    by_cases h : k' = k <;> simp [bumpKey, h, sumVals] at ih ⊢ <;> omega

theorem lookupD_bumpKey_same {α : Type} [DecidableEq α] (m : List (α × Nat)) (k : α) :
    lookupD (bumpKey m k) k = lookupD m k + 1 := by
  induction m with
  | nil => simp [bumpKey, lookupD]
  | cons p rest ih =>
    obtain ⟨k', v⟩ := p
    by_cases h : k' = k <;> simp [bumpKey, h, lookupD, ih]

theorem lookupD_bumpKey_other {α : Type} [DecidableEq α] (m : List (α × Nat))
    (k' k : α) (h : k' ≠ k) : lookupD (bumpKey m k') k = lookupD m k := by
  induction m with
  | nil => simp [bumpKey, lookupD, h]
  | cons p rest ih =>
    obtain ⟨k₀, v⟩ := p
    by_cases h0 : k₀ = k'
    · subst h0
      simp [bumpKey, lookupD, h]
    · by_cases h1 : k₀ = k
      · subst h1
        simp [bumpKey, lookupD, h0, ih]
      · simp [bumpKey, lookupD, h0, h1, ih]

theorem aggStep_by_level (st : AggState) (e : LogEntry) :
    (aggStep st e).by_level = bumpKey st.by_level e.level.as_str := by
  unfold aggStep
  split
  · split <;> rfl
  · rfl

theorem foldl_aggStep_by_level_sum (es : List LogEntry) : ∀ st : AggState,
    sumVals ((es.foldl aggStep st).by_level) = sumVals st.by_level + es.length := by
  induction es with
  | nil => intro st; simp
  | cons e es ih =>
    intro st
    rw [List.foldl_cons, ih, aggStep_by_level, sumVals_bumpKey]
    simp; omega

/-- C6: for every batch of entries, every `top_n`, every `since`/`until`
bounds, every enumeration order of the message map and every skipped count,
the sum of the values of `by_level` in the `Stats` produced by
`analyze_logs` equals `total_entries`. -/
theorem by_level_sums_to_total (entries : List LogEntry) (top_n : Nat)
    (enumErr : List (List Char × Nat)) (since untl : Option DateTime)
    (skipped : Nat) :
    sumVals (analyze_logs entries top_n enumErr since untl skipped).by_level =
      (analyze_logs entries top_n enumErr since untl skipped).total_entries := by
  have h := foldl_aggStep_by_level_sum entries ⟨[], [], []⟩
  simp only [analyze_logs, aggregate]
  simpa [sumVals] using h

/-- C8: the parallel ingestion mode is selected exactly when the override
flag is set or the input byte size exceeds 10 MiB; otherwise the sequential
mode runs. -/
theorem parallel_mode_selection (o : Bool) (n : Nat) (ls : List (List Char)) :
    ((o = true ∨ 10 * 1024 * 1024 < n) →
      chooseIngestion o n ls = read_logs_parallel ls) ∧
    (o = false ∧ n ≤ 10 * 1024 * 1024 →
      chooseIngestion o n ls = read_logs ls) := by
  constructor
  · rintro (h | h) <;>
      simp [chooseIngestion, useParallel, PARALLEL_THRESHOLD, h]
  · rintro ⟨ho, hn⟩
    have : ¬ (PARALLEL_THRESHOLD < n) := by simp [PARALLEL_THRESHOLD]; omega
    simp [chooseIngestion, useParallel, ho, this]

theorem parallel_mode_selection_witness :
    chooseIngestion true 0 [] = read_logs_parallel [] ∧
    chooseIngestion false 5 [] = read_logs [] :=
  ⟨(parallel_mode_selection true 0 []).1 (Or.inl rfl),
   (parallel_mode_selection false 5 []).2 ⟨rfl, by omega⟩⟩

/-! ## Filtering: spec predicate and theorems -/

instance decForallOptionEq {α : Type} (o : Option α) (P : α → Prop)
    [DecidablePred P] : Decidable (∀ x, o = some x → P x) :=
  match o with
  | none => Decidable.isTrue (by simp)
  | some a => decidable_of_iff (P a) (by simp)

/-- The acceptance predicate of the Filter Pipeline as the spec states it:
level is ERROR if `errors_only`; `datetime >= since` if present;
`datetime <= until` if present (both inclusive); and, if a search term is
present, the lowercased rendering `"<ts> [<LEVEL>] <msg>"` contains it as a
substring.  Stated independently of `filter_entries` for the refinement
comparison. -/
def SpecKeep (errors_only : Bool) (search : Option (List Char))
    (since untl : Option DateTime) (e : LogEntry) : Prop :=
  (errors_only = true → e.level = LogLevel.error) ∧
  (∀ d, since = some d → dtLe d e.datetime = true) ∧
  (∀ d, untl = some d → dtLe e.datetime d = true) ∧
  (∀ t, search = some t → containsSub (toLowerL (renderEntry e)) t = true)

instance SpecKeep.dec (eo : Bool) (s : Option (List Char))
    (si un : Option DateTime) (e : LogEntry) : Decidable (SpecKeep eo s si un e) := by
  unfold SpecKeep
  infer_instance

theorem filter_entries_eq (es : List LogEntry) (eo : Bool)
    (s : Option (List Char)) (si un : Option DateTime) :
    filter_entries es eo s si un =
      es.filter (fun e => decide (SpecKeep eo s si un e)) := by
  unfold filter_entries
  rw [List.filter_filter, List.filter_filter, List.filter_filter]
  apply List.filter_congr
  intro e _
  rw [Bool.eq_iff_iff]
  simp only [Bool.and_eq_true, Bool.or_eq_true, Bool.not_eq_true', beq_iff_eq,
    decide_eq_true_eq]
  unfold SpecKeep
  cases eo <;> cases si <;> cases un <;> cases s <;> simp <;> tauto

/-- C5: `filter_entries` returns exactly the subsequence of entries, in
order, satisfying the conjunction of the four optional filters; absent
filters impose no constraint. -/
theorem filter_entries_matches_spec (es : List LogEntry) (eo : Bool)
    (s : Option (List Char)) (si un : Option DateTime) :
    filter_entries es eo s si un =
      es.filter (fun e => decide (SpecKeep eo s si un e)) :=
  filter_entries_eq es eo s si un

/-- C9: filtering is idempotent — applying `filter_entries` to its own
output with the same parameters returns that output unchanged. -/
theorem filtering_idempotent (es : List LogEntry) (eo : Bool)
    (s : Option (List Char)) (si un : Option DateTime) :
    filter_entries (filter_entries es eo s si un) eo s si un =
      filter_entries es eo s si un := by
  rw [filter_entries_eq, filter_entries_eq, List.filter_filter]
  apply List.filter_congr
  intro e _
  exact Bool.and_self _

/-! ## Sample entries used by concrete witnesses -/

def sampleTs : List Char := "2024-01-15 10:30:45".data

def sampleDt : DateTime := ⟨2024, 1, 15, 10, 30, 45⟩

def sampleError (msg : List Char) : LogEntry :=
  ⟨sampleTs, sampleDt, .error, msg⟩

def sampleInfo : LogEntry :=
  ⟨sampleTs, sampleDt, .info, "OK".data⟩

/-! ## C7: error rate by hour -/

/-- C7: `error_rate_by_hour` has exactly the keys of `errors_by_hour`; every
rate equals `count / total_entries * 100` with a positive divisor; and the
map is empty for an empty batch, so the division is never evaluated with a
zero divisor. -/
theorem error_rate_keys_and_values (entries : List LogEntry) (top_n : Nat)
    (enumErr : List (List Char × Nat)) (since untl : Option DateTime)
    (skipped : Nat) :
    ((analyze_logs entries top_n enumErr since untl skipped).error_rate_by_hour.map
        Prod.fst =
      (analyze_logs entries top_n enumErr since untl skipped).errors_by_hour.map
        Prod.fst) ∧
    (∀ h r,
      (h, r) ∈ (analyze_logs entries top_n enumErr since untl skipped).error_rate_by_hour →
      ∃ v, (h, v) ∈ (analyze_logs entries top_n enumErr since untl skipped).errors_by_hour ∧
        0 < entries.length ∧ r = (v : ℚ) / (entries.length : ℚ) * 100) ∧
    (entries = [] →
      (analyze_logs entries top_n enumErr since untl skipped).error_rate_by_hour = []) := by
  refine ⟨?_, ?_, ?_⟩
  · by_cases he : entries = []
    · subst he
      simp [analyze_logs, aggregate]
    · simp [analyze_logs, he, List.map_map]
  · intro h r hmem
    by_cases he : entries = []
    · subst he
      simp [analyze_logs, aggregate] at hmem
    · simp only [analyze_logs, if_neg he, List.mem_map] at hmem ⊢
      obtain ⟨⟨k, v⟩, hm, heq⟩ := hmem
      obtain ⟨hk, hr⟩ := Prod.mk.injEq .. ▸ heq
      exact ⟨v, by simpa [← hk] using hm, List.length_pos.mpr he, hr.symm⟩
  · intro he
    simp [analyze_logs, he]

theorem error_rate_keys_and_values_witness :
    (analyze_logs [] 5 [] none none 0).error_rate_by_hour = [] :=
  (error_rate_keys_and_values [] 5 [] none none 0).2.2 rfl

/-! ## C2: top-error ranking -/

theorem mem_insertDesc (x a : ErrorFrequency) (l : List ErrorFrequency) :
    a ∈ insertDesc x l ↔ a = x ∨ a ∈ l := by
  induction l with
  | nil => simp [insertDesc]
  | cons y ys ih =>
    by_cases h : y.count < x.count <;> simp [insertDesc, h, ih] <;> tauto

theorem insertDesc_sorted (x : ErrorFrequency) (l : List ErrorFrequency)
    (hl : l.Sorted (fun a b => b.count ≤ a.count)) :
    (insertDesc x l).Sorted (fun a b => b.count ≤ a.count) := by
  induction l with
  | nil => simp [insertDesc]
  | cons y ys ih =>
    rw [List.sorted_cons] at hl
    obtain ⟨hy, hys⟩ := hl
    by_cases h : y.count < x.count
    · rw [insertDesc, if_pos h, List.sorted_cons]
      refine ⟨?_, ?_⟩
      · intro b hb
        rcases List.mem_cons.mp hb with hb | hb
        · exact hb ▸ le_of_lt h
        · exact le_trans (hy b hb) (le_of_lt h)
      · rw [List.sorted_cons]
        exact ⟨hy, hys⟩
    · rw [insertDesc, if_neg h, List.sorted_cons]
      refine ⟨?_, ih hys⟩
      intro b hb
      rcases (mem_insertDesc x b ys).mp hb with hb | hb
      · exact hb ▸ le_of_not_lt h
      · exact hy b hb

theorem foldl_insertDesc_sorted (l : List ErrorFrequency) :
    ∀ acc, acc.Sorted (fun a b => b.count ≤ a.count) →
      (l.foldl (fun acc x => insertDesc x acc) acc).Sorted
        (fun a b => b.count ≤ a.count) := by
  induction l with
  | nil => intro acc h; simpa using h
  | cons x xs ih =>
    intro acc h
    exact ih _ (insertDesc_sorted x acc h)

theorem sortDesc_sorted (l : List ErrorFrequency) :
    (sortDesc l).Sorted (fun a b => b.count ≤ a.count) :=
  foldl_insertDesc_sorted l [] (by simp)

/-- C2 (amended): `top_errors` is the stable descending-by-count sort of the
frequency map's enumeration sequence — so equal counts keep the (unspecified)
enumeration order, not necessarily first-seen insertion order — truncated to
at most `max(top_n, 1)` entries. -/
theorem top_errors_sorted_truncated (entries : List LogEntry) (top_n : Nat)
    (enumErr : List (List Char × Nat)) (since untl : Option DateTime)
    (skipped : Nat)
    (_henum : enumErr.Perm (aggregate entries).error_messages) :
    (analyze_logs entries top_n enumErr since untl skipped).top_errors.Sorted
      (fun a b => b.count ≤ a.count) ∧
    (analyze_logs entries top_n enumErr since untl skipped).top_errors.length ≤
      max top_n 1 ∧
    (analyze_logs entries top_n enumErr since untl skipped).top_errors =
      (sortDesc (enumErr.map (fun p => ⟨p.1, p.2⟩))).take (max top_n 1) := by
  refine ⟨?_, ?_, rfl⟩
  · show ((sortDesc (enumErr.map (fun p => (⟨p.1, p.2⟩ : ErrorFrequency)))).take
        (max top_n 1)).Sorted (fun a b => b.count ≤ a.count)
    exact List.Pairwise.sublist (List.take_sublist _ _) (sortDesc_sorted _)
  · show ((sortDesc (enumErr.map (fun p => ⟨p.1, p.2⟩))).take (max top_n 1)).length ≤
      max top_n 1
    rw [List.length_take]
    exact min_le_left _ _

theorem top_errors_sorted_truncated_witness :
    ([(("boom".data : List Char), (1 : Nat))]).Perm
      (aggregate [sampleError "boom".data]).error_messages ∧
    (analyze_logs [sampleError "boom".data] 3 [("boom".data, 1)]
      none none 0).top_errors.Sorted (fun a b => b.count ≤ a.count) :=
  ⟨by decide,
   (top_errors_sorted_truncated [sampleError "boom".data] 3 [("boom".data, 1)]
      none none 0 (by decide)).1⟩

/-- C2 counterexample: two distinct ERROR messages with equal counts,
first seen in the order `"a"` then `"b"`.  The enumeration
`[("b", 1), ("a", 1)]` is an admissible order of the frequency map's
entries, and under it `top_errors` lists `"b"` before `"a"`, so the
first-seen-insertion-order tie-break stated by the claim does not hold. -/
theorem top_errors_not_insertion_order :
    ([(("b".data : List Char), (1 : Nat)), ("a".data, 1)]).Perm
      (aggregate [sampleError "a".data, sampleError "b".data]).error_messages ∧
    (analyze_logs [sampleError "a".data, sampleError "b".data] 5
        [("b".data, 1), ("a".data, 1)] none none 0).top_errors ≠
      [⟨"a".data, 1⟩, ⟨"b".data, 1⟩] := by
  constructor
  · decide
  · decide

/-! ## C10: no ERROR entry is dropped from the hour buckets -/

theorem extract_hour_of_two_tokens (ts : List Char)
    (h2 : 2 ≤ (splitWs ts).length) : ∃ hh, extract_hour ts = some hh := by
  match hsp : splitWs ts with
  | [] => rw [hsp] at h2; simp at h2
  | [a] => rw [hsp] at h2; simp at h2
  | a :: b :: t => exact ⟨_, by rw [extract_hour, hsp]⟩

theorem as_str_ne_error (l : LogLevel) (h : l ≠ LogLevel.error) :
    l.as_str ≠ "ERROR".data := by
  cases l
  · decide
  · decide
  · exact absurd rfl h
  · decide

theorem foldl_aggStep_hour_sum (es : List LogEntry) : ∀ st : AggState,
    (∀ e ∈ es, extract_hour e.timestamp ≠ none) →
    sumVals ((es.foldl aggStep st).errors_by_hour) =
      sumVals st.errors_by_hour + es.countP (fun e => e.level == LogLevel.error) := by
  induction es with
  | nil => intro st _; simp
  | cons e es ih =>
    intro st hall
    rw [List.foldl_cons, ih _ (fun x hx => hall x (List.mem_cons_of_mem _ hx))]
    have hco : (e :: es).countP (fun e => e.level == LogLevel.error) =
        es.countP (fun e => e.level == LogLevel.error) +
          (if e.level = LogLevel.error then 1 else 0) := by
      rw [List.countP_cons]
      by_cases h : e.level = LogLevel.error <;> simp [h]
    rw [hco]
    by_cases h : e.level = LogLevel.error
    · have hne := hall e (List.mem_cons_self e es)
      match hh : extract_hour e.timestamp with
      | none => exact absurd hh hne
      | some hr =>
        rw [show (aggStep st e).errors_by_hour = bumpKey st.errors_by_hour hr by
          unfold aggStep; rw [if_pos h, hh]]
        rw [sumVals_bumpKey]
        simp [h]
        omega
    · rw [show (aggStep st e).errors_by_hour = st.errors_by_hour by
        unfold aggStep; rw [if_neg h]]
      simp [h]

theorem foldl_aggStep_error_lookup (es : List LogEntry) : ∀ st : AggState,
    lookupD ((es.foldl aggStep st).by_level) "ERROR".data =
      lookupD st.by_level "ERROR".data +
        es.countP (fun e => e.level == LogLevel.error) := by
  induction es with
  | nil => intro st; simp
  | cons e es ih =>
    intro st
    rw [List.foldl_cons, ih, aggStep_by_level]
    have hco : (e :: es).countP (fun e => e.level == LogLevel.error) =
        es.countP (fun e => e.level == LogLevel.error) +
          (if e.level = LogLevel.error then 1 else 0) := by
      rw [List.countP_cons]
      by_cases h : e.level = LogLevel.error <;> simp [h]
    rw [hco]
    by_cases h : e.level = LogLevel.error
    · rw [h]
      rw [show (LogLevel.error).as_str = "ERROR".data from rfl]
      rw [lookupD_bumpKey_same]
      simp [h]
      omega
    · rw [lookupD_bumpKey_other _ _ _ (as_str_ne_error e.level h)]
      simp [h]

/-- C10: whenever each entry's stored timestamp has a date token and a time
token separated by whitespace (as every `parse_log_line`-produced timestamp
does), `extract_hour` succeeds on every entry, and the values of
`errors_by_hour` sum to the ERROR count of `by_level` — no ERROR entry is
silently dropped from the hour buckets. -/
theorem errors_by_hour_no_loss (entries : List LogEntry) (top_n : Nat)
    (enumErr : List (List Char × Nat)) (since untl : Option DateTime)
    (skipped : Nat)
    (hts : ∀ e ∈ entries, 2 ≤ (splitWs e.timestamp).length) :
    (∀ e ∈ entries, ∃ hh, extract_hour e.timestamp = some hh) ∧
    sumVals (analyze_logs entries top_n enumErr since untl skipped).errors_by_hour =
      lookupD (analyze_logs entries top_n enumErr since untl skipped).by_level
        "ERROR".data := by
  have hex : ∀ e ∈ entries, ∃ hh, extract_hour e.timestamp = some hh :=
    fun e he => extract_hour_of_two_tokens _ (hts e he)
  refine ⟨hex, ?_⟩
  have h1 := foldl_aggStep_hour_sum entries ⟨[], [], []⟩
    (fun e he => by obtain ⟨hh, hhh⟩ := hex e he; simp [hhh])
  have h2 := foldl_aggStep_error_lookup entries ⟨[], [], []⟩
  simp only [analyze_logs, aggregate]
  simp only [sumVals, lookupD, List.map_nil, List.sum_nil] at h1 h2
  simp [sumVals, lookupD, h1, h2, aggregate]

theorem errors_by_hour_no_loss_witness :
    (∀ e ∈ [sampleError "boom".data, sampleInfo],
      ∃ hh, extract_hour e.timestamp = some hh) ∧
    sumVals (analyze_logs [sampleError "boom".data, sampleInfo] 5 [] none none
        0).errors_by_hour =
      lookupD (analyze_logs [sampleError "boom".data, sampleInfo] 5 [] none none
        0).by_level "ERROR".data :=
  errors_by_hour_no_loss [sampleError "boom".data, sampleInfo] 5 [] none none 0
    (by decide)

/-! ## C1: sequential vs parallel ingestion -/

theorem read_logs_entries (ls : List (List Char)) :
    (read_logs ls).entries =
      ls.filterMap (fun l => parse_log_line (trimEndCRLF l)) := by
  induction ls with
  | nil => rfl
  | cons l ls ih =>
    rw [List.filterMap_cons]
    cases h : parse_log_line (trimEndCRLF l) <;> simp [read_logs, h, ih]

theorem trim_eq_strip (l : List Char) (h1 : '\n' ∉ l)
    (h2 : ¬ List.IsSuffix ['\r', '\r'] l) : trimEndCRLF l = stripLineCR l := by
  cases hr : l.reverse with
  | nil =>
    have hl : l = [] := by simpa using congrArg List.reverse hr
    subst hl
    rfl
  | cons c t =>
    have hl : l = (c :: t).reverse := by rw [← hr, List.reverse_reverse]
    by_cases hc : c = '\r'
    · subst hc
      cases t with
      | nil =>
        have hl' : l = ['\r'] := by simpa using hl
        subst hl'
        decide
      | cons c2 t2 =>
        have hc2r : c2 ≠ '\r' := by
          intro h
          apply h2
          subst h
          rw [hl]
          exact ⟨t2.reverse, by simp⟩
        have hc2n : c2 ≠ '\n' := by
          intro h
          apply h1
          rw [← List.mem_reverse, hr]
          subst h
          simp
        unfold trimEndCRLF stripLineCR
        rw [hr]
        simp [List.dropWhile_cons, hc2r, hc2n]
    · have hcn : c ≠ '\n' := by
        intro h
        apply h1
        rw [← List.mem_reverse, hr]
        subst h
        simp
      unfold trimEndCRLF stripLineCR
      rw [hr]
      simp [List.dropWhile_cons, hc, hcn]
      rw [hl]
      simp

/-- C1 (amended): for every input given as the list of raw lines of a
newline-terminated file, provided no raw line ends with two consecutive
carriage returns (and, being raw lines, none contains a line feed),
sequential and parallel ingestion produce the same multiset — in fact the
same sequence — of successfully parsed entries.  Without that proviso the
two modes differ: see the counterexample. -/
theorem ingestion_modes_agree (lines : List (List Char))
    (hclean : ∀ l ∈ lines, '\n' ∉ l ∧ ¬ List.IsSuffix ['\r', '\r'] l) :
    (read_logs lines).entries.Perm (read_logs_parallel lines).entries := by
  have heq : (read_logs lines).entries = (read_logs_parallel lines).entries := by
    rw [read_logs_entries]
    show _ = lines.filterMap (fun l => parse_log_line (stripLineCR l))
    apply List.filterMap_congr
    intro l hl
    rw [trim_eq_strip l (hclean l hl).1 (hclean l hl).2]
  rw [heq]

theorem ingestion_modes_agree_witness :
    (∀ l ∈ [("2024-01-15 10:30:45 [ERROR] boom".data : List Char),
        "garbage".data], '\n' ∉ l ∧ ¬ List.IsSuffix ['\r', '\r'] l) ∧
    (read_logs ["2024-01-15 10:30:45 [ERROR] boom".data,
        "garbage".data]).entries.Perm
      (read_logs_parallel ["2024-01-15 10:30:45 [ERROR] boom".data,
        "garbage".data]).entries :=
  ⟨by decide, ingestion_modes_agree _ (by decide)⟩

/-- C1 counterexample: the raw line `"2024-01-15 10:30:45 [ERROR] msg\r\r"`
(file bytes `...msg\r\r\n`).  Sequential ingestion trims every trailing CR
and parses the message `"msg"`; parallel ingestion strips only the one CR
adjacent to the newline and parses the message `"msg\r"`, so the two
multisets of parsed entries differ. -/
theorem ingestion_modes_differ_on_double_cr :
    ¬ (read_logs ["2024-01-15 10:30:45 [ERROR] msg".data ++
          ['\r', '\r']]).entries.Perm
        (read_logs_parallel ["2024-01-15 10:30:45 [ERROR] msg".data ++
          ['\r', '\r']]).entries := by
  decide

/-! ## C3: grammar-valid lines parse and round-trip verbatim -/

theorem takeWhile_all_append {α : Type} {p : α → Bool} (u r : List α)
    (hu : ∀ c ∈ u, p c = true)
    (hr : ∀ x t, r = x :: t → p x = false) :
    (u ++ r).takeWhile p = u ∧ (u ++ r).dropWhile p = r := by
  induction u with
  | nil =>
    cases r with
    | nil => simp
    | cons x t =>
      have hx := hr x t rfl
      simp [List.takeWhile_cons, List.dropWhile_cons, hx]
  | cons c u ih =>
    have hc := hu c (by simp)
    have ih' := ih (fun x hx => hu x (by simp [hx]))
    simp [List.takeWhile_cons, List.dropWhile_cons, hc, ih'.1, ih'.2]

theorem takeDigits_of_digits (ds r : List Char)
    (hd : ∀ c ∈ ds, c.isDigit = true) :
    takeDigits ds.length (ds ++ r) = some (ds, r) := by
  induction ds with
  | nil => rfl
  | cons c ds ih =>
    have hc := hd c (by simp)
    have ih' := ih (fun x hx => hd x (by simp [hx]))
    simp [takeDigits, hc, ih']

theorem digitChar_isDigit (k : Nat) (hk : k ≤ 9) :
    (digitChar k).isDigit = true := by
  interval_cases k <;> decide

theorem digitChar_not_ws (k : Nat) (hk : k ≤ 9) :
    isWsChar (digitChar k) = false := by
  interval_cases k <;> decide

theorem digitChar_toNat (k : Nat) (hk : k ≤ 9) :
    (digitChar k).toNat = 48 + k := by
  interval_cases k <;> decide

theorem pad2_digits (n : Nat) (hn : n ≤ 99) :
    ∀ c ∈ pad2 n, c.isDigit = true := by
  intro c hc
  simp [pad2] at hc
  rcases hc with h | h <;> subst h
  · exact digitChar_isDigit _ (by omega)
  · exact digitChar_isDigit _ (by omega)

theorem pad4_digits (n : Nat) (hn : n ≤ 9999) :
    ∀ c ∈ pad4 n, c.isDigit = true := by
  intro c hc
  simp [pad4] at hc
  rcases hc with h | h | h | h <;> subst h <;>
    exact digitChar_isDigit _ (by omega)

theorem takeDigits_pad4 (y : Nat) (hy : y ≤ 9999) (r : List Char) :
    takeDigits 4 (pad4 y ++ r) = some (pad4 y, r) :=
  takeDigits_of_digits (pad4 y) r (pad4_digits y hy)

theorem takeDigits_pad2 (n : Nat) (hn : n ≤ 99) (r : List Char) :
    takeDigits 2 (pad2 n ++ r) = some (pad2 n, r) :=
  takeDigits_of_digits (pad2 n) r (pad2_digits n hn)

theorem expectCh_cons (c : Char) (r : List Char) : expectCh c (c :: r) = some r := by
  simp [expectCh]

theorem wsRun_append (u r : List Char) (hne : u ≠ [])
    (hu : ∀ c ∈ u, isWsChar c = true)
    (hr : ∀ x t, r = x :: t → isWsChar x = false) :
    wsRun (u ++ r) = some (u, r) := by
  obtain ⟨h1, h2⟩ := takeWhile_all_append u r hu hr
  simp [wsRun, h1, h2, hne]

theorem wordRun_append (u r : List Char) (hne : u ≠ [])
    (hu : ∀ c ∈ u, isWordChar c = true)
    (hr : ∀ x t, r = x :: t → isWordChar x = false) :
    wordRun (u ++ r) = some (u, r) := by
  obtain ⟨h1, h2⟩ := takeWhile_all_append u r hu hr
  simp [wordRun, h1, h2, hne]

theorem wsRun_space_pad2 (n : Nat) (hn : n ≤ 99) (X : List Char) :
    wsRun (' ' :: (pad2 n ++ X)) = some ([' '], pad2 n ++ X) := by
  have h := wsRun_append [' '] (pad2 n ++ X) (by simp)
    (by intro c hc; simp at hc; subst hc; decide)
    (by
      intro x t hxt
      have : x = digitChar (n / 10) := by
        rw [show pad2 n ++ X = digitChar (n / 10) :: (digitChar (n % 10) :: X) from rfl] at hxt
        exact (List.cons.injEq .. ▸ hxt).1.symm
      subst this
      exact digitChar_not_ws _ (by omega))
  simpa using h

/-- The spacer `<one or more spaces>` of the grammar. -/
def spacesN (n : Nat) : List Char :=
  List.replicate n ' '

theorem spacesN_ws (n : Nat) : ∀ c ∈ spacesN n, isWsChar c = true := by
  intro c hc
  rw [List.eq_of_mem_replicate hc]
  decide

theorem spacesN_ne (n : Nat) (hn : 1 ≤ n) : spacesN n ≠ [] := by
  simp [spacesN]
  omega

theorem wsRun_spaces (a : Nat) (ha : 1 ≤ a) (X : List Char) :
    wsRun (spacesN a ++ '[' :: X) = some (spacesN a, '[' :: X) :=
  wsRun_append _ _ (spacesN_ne a ha) (spacesN_ws a)
    (by intro x t hxt; injection hxt with h1 h2; subst h1; decide)

theorem msgCapture_append (w msg : List Char) (hw : w ≠ [])
    (hws : ∀ c ∈ w, isWsChar c = true) (hne : msg ≠ [])
    (hm0 : ∀ m0, msg.head? = some m0 → isWsChar m0 = false)
    (hnl : '\n' ∉ msg) :
    msgCapture (w ++ msg) = some msg := by
  obtain ⟨h1, h2⟩ := takeWhile_all_append w msg hws
    (fun x t hxt => hm0 x (by rw [hxt]; rfl))
  simp [msgCapture, h1, h2, hw, hne, hnl]

theorem digitsVal_pad2 (n : Nat) (hn : n ≤ 99) : digitsVal (pad2 n) = n := by
  simp [digitsVal, pad2, List.foldl]
  rw [digitChar_toNat _ (by omega), digitChar_toNat _ (by omega)]
  omega

theorem digitsVal_pad4 (n : Nat) (hn : n ≤ 9999) : digitsVal (pad4 n) = n := by
  simp [digitsVal, pad4, List.foldl]
  rw [digitChar_toNat _ (by omega), digitChar_toNat _ (by omega),
    digitChar_toNat _ (by omega), digitChar_toNat _ (by omega)]
  omega

theorem daysInMonth_le (y m : Nat) : daysInMonth y m ≤ 31 := by
  unfold daysInMonth
  split
  · split <;> omega
  · split <;> omega

/-- The timestamp pieces of a grammar-conforming line rendered from numeric
fields (`YYYY-MM-DD HH:MM:SS`, one space between date and time). -/
def tsPartsOf (y mo d h mi s : Nat) : TsParts :=
  ⟨pad4 y, pad2 mo, pad2 d, [' '], pad2 h, pad2 mi, pad2 s⟩

/-- A line of the grammar
`<YYYY-MM-DD HH:MM:SS><one or more spaces>[<LEVEL>]<one or more spaces><message>`. -/
def mkLine (y mo d h mi s a b : Nat) (lvl msg : List Char) : List Char :=
  pad4 y ++ '-' :: (pad2 mo ++ '-' :: (pad2 d ++ ' ' :: (pad2 h ++ ':' ::
    (pad2 mi ++ ':' :: (pad2 s ++ (spacesN a ++ '[' ::
      (lvl ++ ']' :: (spacesN b ++ msg))))))))

theorem chronoParse_pads (y mo d h mi s : Nat) (hy : y ≤ 9999)
    (hv : validDate y mo d = true) (hh : h ≤ 23) (hmi : mi ≤ 59)
    (hs : s ≤ 60) :
    chronoParse (tsPartsOf y mo d h mi s) = some ⟨y, mo, d, h, mi, s⟩ := by
  simp only [validDate, Bool.and_eq_true, decide_eq_true_eq] at hv
  obtain ⟨⟨⟨h1, h2⟩, h3⟩, h4⟩ := hv
  have hd31 : d ≤ 31 := le_trans h4 (daysInMonth_le y mo)
  unfold chronoParse tsPartsOf
  rw [digitsVal_pad4 y hy, digitsVal_pad2 mo (by omega),
    digitsVal_pad2 d (by omega), digitsVal_pad2 h (by omega),
    digitsVal_pad2 mi (by omega), digitsVal_pad2 s (by omega)]
  have hvd : validDate y mo d = true := by
    simp only [validDate, Bool.and_eq_true, decide_eq_true_eq]
    omega
  simp [hvd, hh, hmi, hs]

theorem scanTs_mkLine (y mo d h mi s : Nat) (rest : List Char)
    (hy : y ≤ 9999) (hmo : mo ≤ 99) (hd : d ≤ 99) (hh : h ≤ 99)
    (hmi : mi ≤ 99) (hs : s ≤ 99) :
    scanTs (pad4 y ++ '-' :: (pad2 mo ++ '-' :: (pad2 d ++ ' ' :: (pad2 h ++
        ':' :: (pad2 mi ++ ':' :: (pad2 s ++ rest)))))) =
      some (tsPartsOf y mo d h mi s, rest) := by
  simp [scanTs, takeDigits_pad4 y hy, expectCh_cons, takeDigits_pad2 mo hmo,
    takeDigits_pad2 d hd, wsRun_space_pad2 h hh, takeDigits_pad2 h hh,
    takeDigits_pad2 mi hmi, takeDigits_pad2 s hs, tsPartsOf]

/-- C3: every line of the grammar `<YYYY-MM-DD HH:MM:SS><spaces>[<LEVEL>]
<spaces><message>` with a calendar-valid timestamp and a known level token
parses to `some` entry whose `timestamp` is the timestamp text verbatim and
whose `message` is the remainder of the line verbatim (the message being the
text after the separating spaces: nonempty, not starting with whitespace,
and containing no line feed, as a raw line's remainder cannot). -/
theorem parse_valid_line_roundtrip (y mo d h mi s a b : Nat)
    (lvl msg : List Char) (L : LogLevel)
    (hy : y ≤ 9999) (hv : validDate y mo d = true) (hh : h ≤ 23)
    (hmi : mi ≤ 59) (hs : s ≤ 59) (ha : 1 ≤ a) (hb : 1 ≤ b)
    (hlvl : LogLevel.from_str lvl = some L) (hlvlne : lvl ≠ [])
    (hlvlw : ∀ c ∈ lvl, isWordChar c = true)
    (hne : msg ≠ [])
    (hm0 : ∀ m0, msg.head? = some m0 → isWsChar m0 = false)
    (hnl : '\n' ∉ msg) :
    parse_log_line (mkLine y mo d h mi s a b lvl msg) =
      some ⟨(tsPartsOf y mo d h mi s).render, ⟨y, mo, d, h, mi, s⟩, L, msg⟩ := by
  simp only [validDate, Bool.and_eq_true, decide_eq_true_eq] at hv
  obtain ⟨⟨⟨h1, h2⟩, h3⟩, h4⟩ := hv
  have hd31 : d ≤ 31 := le_trans h4 (daysInMonth_le y mo)
  have hvd : validDate y mo d = true := by
    simp only [validDate, Bool.and_eq_true, decide_eq_true_eq]
    omega
  have hscan := scanTs_mkLine y mo d h mi s
    (spacesN a ++ '[' :: (lvl ++ ']' :: (spacesN b ++ msg)))
    hy (by omega) (by omega) (by omega) (by omega) (by omega)
  have hword : wordRun (lvl ++ ']' :: (spacesN b ++ msg)) =
      some (lvl, ']' :: (spacesN b ++ msg)) :=
    wordRun_append _ _ hlvlne hlvlw
      (by intro x t hxt; injection hxt with hx1 hx2; subst hx1; decide)
  have hmsg : msgCapture (spacesN b ++ msg) = some msg :=
    msgCapture_append _ _ (spacesN_ne b hb) (spacesN_ws b) hne hm0 hnl
  have hchrono := chronoParse_pads y mo d h mi s hy hvd hh hmi (by omega)
  simp [parse_log_line, mkLine, hscan, wsRun_spaces a ha, expectCh_cons,
    hword, hmsg, hchrono, hlvl]

theorem parse_valid_line_roundtrip_witness :
    parse_log_line (mkLine 2024 1 15 10 30 45 1 1 "ERROR".data
        "Failed to connect".data) =
      some ⟨(tsPartsOf 2024 1 15 10 30 45).render, ⟨2024, 1, 15, 10, 30, 45⟩,
        LogLevel.error, "Failed to connect".data⟩ :=
  parse_valid_line_roundtrip 2024 1 15 10 30 45 1 1 "ERROR".data
    "Failed to connect".data LogLevel.error (by omega) (by decide) (by omega)
    (by omega) (by omega) (by omega) (by omega) (by decide) (by decide)
    (by decide) (by decide) (by decide) (by decide)

/-! ## C4: deviating lines are rejected and counted -/

theorem expectCh_inv (c : Char) (cs r : List Char)
    (h : expectCh c cs = some r) : cs = c :: r := by
  cases cs with
  | nil => simp [expectCh] at h
  | cons d rest =>
    by_cases hd : d = c
    · subst hd
      simp [expectCh] at h
      subst h
      rfl
    · simp [expectCh, hd] at h

theorem takeDigits_inv (n : Nat) (cs ds r : List Char)
    (h : takeDigits n cs = some (ds, r)) :
    cs = ds ++ r ∧ ds.length = n ∧ ∀ c ∈ ds, c.isDigit = true := by
  induction n generalizing cs ds r with
  | zero =>
    simp [takeDigits] at h
    obtain ⟨h1, h2⟩ := h
    subst h1
    subst h2
    simp
  | succ n ih =>
    cases cs with
    | nil => simp [takeDigits] at h
    | cons c cs =>
      by_cases hc : c.isDigit
      · rw [takeDigits, if_pos hc] at h
        cases htd : takeDigits n cs with
        | none => rw [htd] at h; simp at h
        | some p =>
          obtain ⟨ds', r'⟩ := p
          rw [htd] at h
          simp at h
          obtain ⟨hds, hr⟩ := h
          obtain ⟨e1, e2, e3⟩ := ih cs ds' r' htd
          subst hds
          subst hr
          subst e1
          refine ⟨by simp, by simp [e2], ?_⟩
          intro x hx
          rcases List.mem_cons.mp hx with hx | hx
          · subst hx; exact hc
          · exact e3 x hx
      · rw [takeDigits, if_neg hc] at h
        simp at h

theorem wsRun_inv (cs u r : List Char) (h : wsRun cs = some (u, r)) :
    cs = u ++ r ∧ u ≠ [] ∧ (∀ c ∈ u, isWsChar c = true) := by
  simp only [wsRun] at h
  by_cases ht : cs.takeWhile isWsChar = []
  · rw [if_pos ht] at h
    simp at h
  · rw [if_neg ht] at h
    simp at h
    obtain ⟨h1, h2⟩ := h
    subst h1
    subst h2
    exact ⟨(List.takeWhile_append_dropWhile _ _).symm, ht,
      fun c hc => List.mem_takeWhile_imp hc⟩

theorem wordRun_inv (cs u r : List Char) (h : wordRun cs = some (u, r)) :
    cs = u ++ r ∧ u ≠ [] ∧ (∀ c ∈ u, isWordChar c = true) := by
  simp only [wordRun] at h
  by_cases ht : cs.takeWhile isWordChar = []
  · rw [if_pos ht] at h
    simp at h
  · rw [if_neg ht] at h
    simp at h
    obtain ⟨h1, h2⟩ := h
    subst h1
    subst h2
    exact ⟨(List.takeWhile_append_dropWhile _ _).symm, ht,
      fun c hc => List.mem_takeWhile_imp hc⟩

/-- The digit/whitespace shape the regex imposes on the timestamp pieces. -/
def TsShape (p : TsParts) : Prop :=
  p.yc.length = 4 ∧ (∀ c ∈ p.yc, c.isDigit = true) ∧
  p.moc.length = 2 ∧ (∀ c ∈ p.moc, c.isDigit = true) ∧
  p.dc.length = 2 ∧ (∀ c ∈ p.dc, c.isDigit = true) ∧
  p.w1 ≠ [] ∧ (∀ c ∈ p.w1, isWsChar c = true) ∧
  p.hc.length = 2 ∧ (∀ c ∈ p.hc, c.isDigit = true) ∧
  p.mic.length = 2 ∧ (∀ c ∈ p.mic, c.isDigit = true) ∧
  p.sc.length = 2 ∧ (∀ c ∈ p.sc, c.isDigit = true)

theorem scanTs_inv (cs : List Char) (p : TsParts) (r : List Char)
    (h : scanTs cs = some (p, r)) : cs = p.render ++ r ∧ TsShape p := by
  rw [scanTs] at h
  rcases h1 : takeDigits 4 cs with _ | ⟨⟨yc, r1⟩⟩ <;> rw [h1] at h
  · simp only [Option.bind_eq_bind, Option.none_bind] at h
    exact Option.noConfusion h
  simp only [Option.bind_eq_bind, Option.some_bind] at h
  rcases h2 : expectCh '-' r1 with _ | r2 <;> rw [h2] at h
  · simp only [Option.bind_eq_bind, Option.none_bind] at h
    exact Option.noConfusion h
  simp only [Option.bind_eq_bind, Option.some_bind] at h
  rcases h3 : takeDigits 2 r2 with _ | ⟨⟨moc, r3⟩⟩ <;> rw [h3] at h
  · simp only [Option.bind_eq_bind, Option.none_bind] at h
    exact Option.noConfusion h
  simp only [Option.bind_eq_bind, Option.some_bind] at h
  rcases h4 : expectCh '-' r3 with _ | r4 <;> rw [h4] at h
  · simp only [Option.bind_eq_bind, Option.none_bind] at h
    exact Option.noConfusion h
  simp only [Option.bind_eq_bind, Option.some_bind] at h
  rcases h5 : takeDigits 2 r4 with _ | ⟨⟨dc, r5⟩⟩ <;> rw [h5] at h
  · simp only [Option.bind_eq_bind, Option.none_bind] at h
    exact Option.noConfusion h
  simp only [Option.bind_eq_bind, Option.some_bind] at h
  rcases h6 : wsRun r5 with _ | ⟨⟨w1, r6⟩⟩ <;> rw [h6] at h
  · simp only [Option.bind_eq_bind, Option.none_bind] at h
    exact Option.noConfusion h
  simp only [Option.bind_eq_bind, Option.some_bind] at h
  rcases h7 : takeDigits 2 r6 with _ | ⟨⟨hc, r7⟩⟩ <;> rw [h7] at h
  · simp only [Option.bind_eq_bind, Option.none_bind] at h
    exact Option.noConfusion h
  simp only [Option.bind_eq_bind, Option.some_bind] at h
  rcases h8 : expectCh ':' r7 with _ | r8 <;> rw [h8] at h
  · simp only [Option.bind_eq_bind, Option.none_bind] at h
    exact Option.noConfusion h
  simp only [Option.bind_eq_bind, Option.some_bind] at h
  rcases h9 : takeDigits 2 r8 with _ | ⟨⟨mic, r9⟩⟩ <;> rw [h9] at h
  · simp only [Option.bind_eq_bind, Option.none_bind] at h
    exact Option.noConfusion h
  simp only [Option.bind_eq_bind, Option.some_bind] at h
  rcases h10 : expectCh ':' r9 with _ | r10 <;> rw [h10] at h
  · simp only [Option.bind_eq_bind, Option.none_bind] at h
    exact Option.noConfusion h
  simp only [Option.bind_eq_bind, Option.some_bind] at h
  rcases h11 : takeDigits 2 r10 with _ | ⟨⟨sc, r11⟩⟩ <;> rw [h11] at h
  · simp only [Option.bind_eq_bind, Option.none_bind] at h
    exact Option.noConfusion h
  simp only [Option.bind_eq_bind, Option.some_bind, Option.pure_def,
    Option.some.injEq, Prod.mk.injEq] at h
  obtain ⟨hp, hr⟩ := h
  subst hp
  subst hr
  obtain ⟨e1, e2, e3⟩ := takeDigits_inv 4 cs yc r1 h1
  have e4 := expectCh_inv '-' r1 r2 h2
  obtain ⟨e5, e6, e7⟩ := takeDigits_inv 2 r2 moc r3 h3
  have e8 := expectCh_inv '-' r3 r4 h4
  obtain ⟨e9, e10, e11⟩ := takeDigits_inv 2 r4 dc r5 h5
  obtain ⟨e12, e13, e14⟩ := wsRun_inv r5 w1 r6 h6
  obtain ⟨e15, e16, e17⟩ := takeDigits_inv 2 r6 hc r7 h7
  have e18 := expectCh_inv ':' r7 r8 h8
  obtain ⟨e19, e20, e21⟩ := takeDigits_inv 2 r8 mic r9 h9
  have e22 := expectCh_inv ':' r9 r10 h10
  obtain ⟨e23, e24, e25⟩ := takeDigits_inv 2 r10 sc r11 h11
  constructor
  · rw [e1, e4, e5, e8, e9, e12, e15, e18, e19, e22, e23]
    simp [TsParts.render]
  · exact ⟨e2, e3, e6, e7, e10, e11, e13, e14, e16, e17, e20, e21, e24, e25⟩

/-- Full regex-plus-validation match: the line decomposes as
`<timestamp><ws>[<word token>]<rest>` with digit-shaped timestamp pieces, a
message captured from `rest`, a chrono-valid timestamp and a known level
token.  A line "deviates from the grammar" exactly when this fails. -/
def ValidShape (line : List Char) : Prop :=
  ∃ p : TsParts, ∃ w2 lvl rest msg : List Char, ∃ dt : DateTime, ∃ L : LogLevel,
    line = p.render ++ w2 ++ '[' :: lvl ++ ']' :: rest ∧
    TsShape p ∧
    w2 ≠ [] ∧ (∀ c ∈ w2, isWsChar c = true) ∧
    lvl ≠ [] ∧ (∀ c ∈ lvl, isWordChar c = true) ∧
    msgCapture rest = some msg ∧
    chronoParse p = some dt ∧
    LogLevel.from_str lvl = some L

theorem valid_of_parse (line : List Char) (e : LogEntry)
    (hp : parse_log_line line = some e) : ValidShape line := by
  rw [parse_log_line] at hp
  rcases h1 : scanTs line with _ | ⟨⟨p, r1⟩⟩ <;> rw [h1] at hp
  · simp only [Option.bind_eq_bind, Option.none_bind] at hp
    exact Option.noConfusion hp
  simp only [Option.bind_eq_bind, Option.some_bind] at hp
  rcases h2 : wsRun r1 with _ | ⟨⟨w2, r2⟩⟩ <;> rw [h2] at hp
  · simp only [Option.bind_eq_bind, Option.none_bind] at hp
    exact Option.noConfusion hp
  simp only [Option.bind_eq_bind, Option.some_bind] at hp
  rcases h3 : expectCh '[' r2 with _ | r3 <;> rw [h3] at hp
  · simp only [Option.bind_eq_bind, Option.none_bind] at hp
    exact Option.noConfusion hp
  simp only [Option.bind_eq_bind, Option.some_bind] at hp
  rcases h4 : wordRun r3 with _ | ⟨⟨lvl, r4⟩⟩ <;> rw [h4] at hp
  · simp only [Option.bind_eq_bind, Option.none_bind] at hp
    exact Option.noConfusion hp
  simp only [Option.bind_eq_bind, Option.some_bind] at hp
  rcases h5 : expectCh ']' r4 with _ | r5 <;> rw [h5] at hp
  · simp only [Option.bind_eq_bind, Option.none_bind] at hp
    exact Option.noConfusion hp
  simp only [Option.bind_eq_bind, Option.some_bind] at hp
  rcases h6 : msgCapture r5 with _ | msg <;> rw [h6] at hp
  · simp only [Option.bind_eq_bind, Option.none_bind] at hp
    exact Option.noConfusion hp
  simp only [Option.bind_eq_bind, Option.some_bind] at hp
  rcases h7 : chronoParse p with _ | dt <;> rw [h7] at hp
  · simp only [Option.bind_eq_bind, Option.none_bind] at hp
    exact Option.noConfusion hp
  simp only [Option.bind_eq_bind, Option.some_bind] at hp
  rcases h8 : LogLevel.from_str lvl with _ | L <;> rw [h8] at hp
  · simp only [Option.bind_eq_bind, Option.none_bind] at hp
    exact Option.noConfusion hp
  obtain ⟨hcs, hshape⟩ := scanTs_inv line p r1 h1
  obtain ⟨f1, f2, f3⟩ := wsRun_inv r1 w2 r2 h2
  have f4 := expectCh_inv '[' r2 r3 h3
  obtain ⟨f5, f6, f7⟩ := wordRun_inv r3 lvl r4 h4
  have f8 := expectCh_inv ']' r4 r5 h5
  refine ⟨p, w2, lvl, r5, msg, dt, L, ?_, hshape, f2, f3, f6, f7, h6, h7, h8⟩
  rw [hcs, f1, f4, f5, f8]
  simp

/-- C4: a line either fully matches the grammar — shape, calendar-valid
timestamp, known level token — or `parse_log_line` returns `None`
(equivalently: every deviating line yields `None`, with no partial entry
and no error propagated); and sequential ingestion counts exactly the
failing lines in `skipped` while keeping every line accounted for, instead
of aborting. -/
theorem parse_rejects_deviations :
    (∀ line : List Char, ValidShape line ∨ parse_log_line line = none) ∧
    (∀ ls : List (List Char),
      (read_logs ls).skipped =
        ls.countP (fun l => (parse_log_line (trimEndCRLF l)).isNone) ∧
      (read_logs ls).entries.length + (read_logs ls).skipped = ls.length) := by
  constructor
  · intro line
    cases hp : parse_log_line line with
    | none => exact Or.inr rfl
    | some e => exact Or.inl (valid_of_parse line e hp)
  · intro ls
    induction ls with
    | nil => simp [read_logs]
    | cons l ls ih =>
      cases hp : parse_log_line (trimEndCRLF l) <;>
        simp [read_logs, hp, List.countP_cons, ih.1, ih.2] <;> omega
